import Mathlib

/-!
Verification of the EmoBit speech-service core (scripts/funasr_server.py and
scripts/voice_clone_server.py), shallowly embedded in Lean.  Machine inference
calls (`model.generate`, `IndexTTS2.infer`) are opaque in the source's design,
so they appear here as oracle parameters returning `Option` (with `none`
modelling a raised exception or an empty model result); everything else is
translated from the Python source.
-/

namespace EmoBit

/-! ### Configuration constants (funasr_server.py, default env values) -/

/-- Default of `MAX_CHUNK_SIZE` (bytes): chunking ceiling for long buffers. -/
def MAX_CHUNK_SIZE : Nat := 320000

/-- Default of `CHUNK_OVERLAP` (bytes): overlap between consecutive chunks. -/
def CHUNK_OVERLAP : Nat := 16000

/-- Default of `MIN_AUDIO_SIZE` (bytes): minimum buffer admitted to recognition. -/
def MIN_AUDIO_SIZE : Nat := 8000

/-! ### Chunk windows (process_long_audio, the while-loop over start_idx)

The Python loop, in sample units (`chunk_size_samples = MAX_CHUNK_SIZE // 2`,
`overlap_samples = CHUNK_OVERLAP // 2`):

    start_idx = 0
    while start_idx < audio_length:
        end_idx = min(start_idx + chunk_size_samples, audio_length)
        ... emit window [start_idx, end_idx) ...
        if end_idx >= audio_length: break
        start_idx = end_idx - overlap_samples

`chunkLoop` mirrors it with a fuel argument (the loop terminates only when the
stride is positive; fuel `L + 1` is always sufficient in that case since every
iteration emits a window and the final window reaches `L`). -/

/-- One iteration per fuel step of the chunking while-loop.  `csz` is the chunk
size in samples, `ov` the overlap in samples, `L` the total sample count. -/
def chunkLoop (csz ov L : Nat) : Nat → Nat → List (Nat × Nat)
  | 0, _ => []
  | fuel + 1, s =>
    if s < L then
      let e := min (s + csz) L
      if L ≤ e then [(s, e)]
      else (s, e) :: chunkLoop csz ov L fuel (e - ov)
    else []

/-- The list of `(start_idx, end_idx)` windows produced by `process_long_audio`. -/
def chunkWindows (csz ov L : Nat) : List (Nat × Nat) :=
  chunkLoop csz ov L (L + 1) 0

/-- Number of windows starting from position `s`, in closed form:
`ceil((L - s - ov) / (csz - ov))` as natural-number arithmetic. -/
def nChunksFrom (csz ov L s : Nat) : Nat :=
  (L - s - ov + (csz - ov) - 1) / (csz - ov)

/-! ### Transcript normalization (process_long_audio, the three re.sub calls)

    final_text = re.sub(r'([。！？])\s*\1+', r'\1', final_text)
    final_text = re.sub(r'\s+', ' ', final_text).strip()
    final_text = re.sub(r'\s+([，。！？])', r'\1', final_text)

Each substitution is modelled as a left-to-right scan over the character list
(Python `re.sub` replaces leftmost non-overlapping matches and resumes after
each match; for these patterns greedy matching never backtracks, because the
character classes involved — whitespace vs. punctuation — are disjoint).  The
scans carry a fuel argument; every step consumes at least the head character,
so fuel = list length always suffices. -/

/-- Python `\s` on the relevant (ASCII) whitespace characters. -/
def pySpace (c : Char) : Bool :=
  c == ' ' || c == '\t' || c == '\n' || c == '\r' || c == '\x0b' || c == '\x0c'

/-- The sentence-ending class `[。！？]` of the first substitution. -/
def isStop1 (c : Char) : Bool :=
  c == '。' || c == '！' || c == '？'

/-- The punctuation class `[，。！？]` of the third substitution. -/
def isPunct2 (c : Char) : Bool :=
  c == '，' || c == '。' || c == '！' || c == '？'

/-- `re.sub(r'([。！？])\s*\1+', r'\1', ·)`: a sentence-ending mark, optional
whitespace, then one or more repetitions of the same mark, collapse to one. -/
def sub1 : Nat → List Char → List Char
  | 0, _ => []
  | _ + 1, [] => []
  | fuel + 1, c :: rest =>
    if isStop1 c && ((rest.dropWhile pySpace).head? == some c) then
      c :: sub1 fuel ((rest.dropWhile pySpace).dropWhile (fun x => x == c))
    else c :: sub1 fuel rest

/-- `re.sub(r'\s+', ' ', ·)`: collapse every whitespace run to one space. -/
def sub2 : Nat → List Char → List Char
  | 0, _ => []
  | _ + 1, [] => []
  | fuel + 1, c :: rest =>
    if pySpace c then ' ' :: sub2 fuel (rest.dropWhile pySpace)
    else c :: sub2 fuel rest

/-- Python `str.strip()`: drop whitespace from both ends. -/
def stripWS (l : List Char) : List Char :=
  ((l.dropWhile pySpace).reverse.dropWhile pySpace).reverse

/-- Whether a list starts with a `[，。！？]` character. -/
def punctHead (l : List Char) : Bool :=
  match l.head? with
  | some d => isPunct2 d
  | none => false

/-- `re.sub(r'\s+([，。！？])', r'\1', ·)`: drop whitespace that immediately
precedes one of the four punctuation marks. -/
def sub3 : Nat → List Char → List Char
  | 0, _ => []
  | _ + 1, [] => []
  | fuel + 1, c :: rest =>
    if pySpace c && punctHead (rest.dropWhile pySpace) then
      (rest.dropWhile pySpace).headD ' ' :: sub3 fuel (rest.dropWhile pySpace).tail
    else c :: sub3 fuel rest

/-- The full normalization pipeline of `process_long_audio`. -/
def normalizeText (l : List Char) : List Char :=
  let t1 := sub1 l.length l
  let t2 := stripWS (sub2 t1.length t1)
  sub3 t2.length t2

/-- String-level wrapper of `normalizeText`. -/
def normalizeStr (s : String) : String :=
  ⟨normalizeText s.data⟩

/-- Python `str.strip()` at the string level (kernel-computable model of the
`.strip()` calls in funasr_server.py). -/
def pyStrip (s : String) : String :=
  ⟨stripWS s.data⟩

/-! Structural invariants of normalized text, used to analyse the fixed point
of the pipeline. -/

/-- No two adjacent whitespace characters. -/
def noAdjWS (l : List Char) : Prop :=
  l.Chain' (fun a b => ¬(pySpace a = true ∧ pySpace b = true))

/-- No whitespace character immediately before one of `，。！？`. -/
def noWSPunct (l : List Char) : Prop :=
  l.Chain' (fun a b => pySpace a = true → isPunct2 b = false)

/-- No sentence-ending mark immediately followed by the same mark. -/
def noDupStop (l : List Char) : Prop :=
  l.Chain' (fun a b => isStop1 a = true → a ≠ b)

/-- Every whitespace character is a plain space. -/
def allSpacesBlank (l : List Char) : Prop :=
  ∀ c ∈ l, pySpace c = true → c = ' '

/-- Neither end of the list is whitespace. -/
def noEdgeWS (l : List Char) : Prop :=
  (∀ c ∈ l.head?, pySpace c = false) ∧ (∀ c ∈ l.getLast?, pySpace c = false)

/-! ### Recognition (funasr_server.py, process_audio / process_long_audio)

The buffer is the raw byte list accumulated from binary frames;
`np.frombuffer(..., dtype=np.int16)` decodes consecutive little-endian byte
pairs into signed 16-bit samples (it raises on an odd byte count, which the
enclosing `except` turns into the empty result).  The float32 scaling by
1/32768 is injective, so the opaque recognizer oracle absorbs it and is
modelled directly on the integer sample list. -/

/-- Little-endian int16 decoding of a byte list (defined on even prefixes). -/
def toSamples : List Nat → List Int
  | lo :: hi :: rest =>
    (if 32768 ≤ lo + 256 * hi then ((lo + 256 * hi : Nat) : Int) - 65536
     else ((lo + 256 * hi : Nat) : Int)) :: toSamples rest
  | _ => []

/-- `audio_float32[start_idx:end_idx]` for a window `(start_idx, end_idx)`. -/
def sliceWin (samples : List Int) (w : Nat × Nat) : List Int :=
  (samples.drop w.1).take (w.2 - w.1)

/-- `process_long_audio`: run the recognizer oracle `g` on every window that
meets the 0.3 s floor (`len(chunk)/16000 >= 0.3`, i.e. at least 4800 samples),
keep the non-empty stripped texts, join them with single spaces and normalize.
Returns the text and the number of recognizer invocations. -/
def process_long (g : List Int → Option String) (samples : List Int) : String × Nat :=
  let ws := chunkWindows (MAX_CHUNK_SIZE / 2) (CHUNK_OVERLAP / 2) samples.length
  let attempted := ws.filter (fun w => 4800 ≤ w.2 - w.1)
  let texts := attempted.filterMap (fun w =>
    match g (sliceWin samples w) with
    | none => none
    | some t => if pyStrip t = "" then none else some (pyStrip t))
  if texts ≠ [] then (normalizeStr (String.intercalate " " texts), attempted.length)
  else ("", attempted.length)

/-- `process_audio`: reject buffers under `MIN_AUDIO_SIZE`; decode samples (an
odd byte count raises in `np.frombuffer` and the handler returns `""`);
buffers over `MAX_CHUNK_SIZE` go through `process_long`; otherwise one
recognizer call, whose text is returned verbatim when its stripped form is
non-empty (`if text and text.strip(): return text`), and `""` otherwise.
Returns the text and the number of recognizer invocations. -/
def process_buf (g : List Int → Option String) (b : List Nat) : String × Nat :=
  if b.length < MIN_AUDIO_SIZE then ("", 0)
  else if b.length % 2 ≠ 0 then ("", 0)
  else if MAX_CHUNK_SIZE < b.length then process_long g (toSamples b)
  else
    match g (toSamples b) with
    | none => ("", 1)
    | some t => (if pyStrip t = "" then "" else t, 1)

/-! ### Connection session (funasr_server.py, handle_client)

Per-connection state is `audio_buffer` plus the `is_speaking` flag,
initialized `bytearray()` / `True` on connect.  Messages are control JSON
(`start`, `stop` — the latter also covers `is_speaking == False` — or any
other/invalid text, which is ignored) and binary audio frames. -/

/-- Per-connection session state. -/
structure Session where
  buf : List Nat
  is_speaking : Bool
  deriving DecidableEq

/-- Inbound client frames. -/
inductive ClientMsg where
  | start
  | stop
  | other
  | bin (data : List Nat)
  deriving DecidableEq

/-- Outbound server frames: `{"type":"ready"}` and `{text, is_final}`. -/
inductive ServerMsg where
  | ready
  | result (text : String) (is_final : Bool)
  deriving DecidableEq

/-- Session state at connect time (lines `audio_buffer = bytearray()`,
`is_speaking = True`). -/
def initSession : Session :=
  ⟨[], true⟩

/-- One step of the `async for message in websocket` loop: the new session
state, the frames sent in reply, and the number of recognizer invocations. -/
def handleMessage (g : List Int → Option String) (s : Session) :
    ClientMsg → Session × List ServerMsg × Nat
  | .start => (⟨[], true⟩, [.ready], 0)
  | .stop =>
    if MIN_AUDIO_SIZE ≤ s.buf.length then
      if (process_buf g s.buf).1 ≠ "" ∧ pyStrip (process_buf g s.buf).1 ≠ "" then
        (⟨[], false⟩, [.result (process_buf g s.buf).1 true], (process_buf g s.buf).2)
      else (⟨[], false⟩, [.result "" true], (process_buf g s.buf).2)
    else (⟨[], false⟩, [.result "" true], 0)
  | .bin data => if s.is_speaking then (⟨s.buf ++ data, s.is_speaking⟩, [], 0) else (s, [], 0)
  | .other => (s, [], 0)

/-! ### Synthesis cache (voice_clone_server.py, `_tts_cache : OrderedDict`)

`_tts_cache` is an insertion-ordered mapping; `popitem(last=False)` removes the
front (least recently used, given the `move_to_end` discipline), assignment of
a fresh key appends at the back, and `move_to_end` moves a key to the back.
The model is the list of (key, value) entries in order, front = oldest. -/

/-- OrderedDict assignment `d[k] = v`: replace in place when the key is
present, append at the back otherwise. -/
def odSet (k : String) (v : List Nat) (l : List (String × List Nat)) :
    List (String × List Nat) :=
  if l.any (fun p => p.1 == k) then
    l.map (fun p => if p.1 == k then (k, v) else p)
  else l ++ [(k, v)]

/-- OrderedDict `move_to_end(k)`: entries with key `k` move to the back. -/
def odMoveToEnd (k : String) (l : List (String × List Nat)) :
    List (String × List Nat) :=
  l.filter (fun p => !(p.1 == k)) ++ l.filter (fun p => p.1 == k)

/-- The eviction loop `while len(_tts_cache) >= TTS_CACHE_MAX and _tts_cache:
_tts_cache.popitem(last=False)`, with fuel (the loop pops one entry per
iteration, so fuel `l.length` always suffices). -/
def evictLoop (maxN : Nat) : Nat → List (String × List Nat) → List (String × List Nat)
  | 0, l => l
  | fuel + 1, l => if maxN ≤ l.length ∧ l ≠ [] then evictLoop maxN fuel l.tail else l

/-- The cache-store block of `clone_and_synthesize`: evict while at capacity,
assign under the key, then `move_to_end`. -/
def cacheStore (maxN : Nat) (l : List (String × List Nat)) (k : String) (v : List Nat) :
    List (String × List Nat) :=
  odMoveToEnd k (odSet k v (evictLoop maxN l.length l))

/-- The cache-hit path of `clone_and_synthesize`: on `ck in _tts_cache`, move
the entry to the back (most recently used) and return its bytes. -/
def cacheLookup (l : List (String × List Nat)) (k : String) :
    Option (List Nat) × List (String × List Nat) :=
  match l.find? (fun p => p.1 == k) with
  | some p => (some p.2, odMoveToEnd k l)
  | none => (none, l)

/-! ### Cache key (voice_clone_server.py, `_cache_key`)

`_cache_key(text, voice_id) = sha256(f"{text}|{voice_id}").hexdigest()`.
The digest is modelled as an arbitrary function of the concatenated string:
every property proved below holds for every choice of digest function, in
particular for SHA-256. -/

/-- `_cache_key`: digest of `text + "|" + voiceId`. -/
def cache_key (digest : String → String) (text voiceId : String) : String :=
  digest (text ++ "|" ++ voiceId)

/-! ### Synthesis call (voice_clone_server.py, clone_and_synthesize)

    ck = _cache_key(text, key_id) if key_id else None
    if ck and ck in _tts_cache: ... return hit ...
    async with _inference_lock:
        with tempfile.NamedTemporaryFile(...) as f: out_path = Path(f.name)
        try:
            ... run inference, read bytes, store in cache ...
            return wav_bytes
        finally:
            out_path.unlink(missing_ok=True)

The gate acquisition/release and temp-file creation/removal are recorded as an
event trace; Python's `async with` releases, and `finally` unlinks, on both
the normal and the exceptional exit, which the two `infer` branches mirror.
The inference result is an `Option` (`none` = the inference call raised;
the exception propagates to the caller after the finally/with blocks ran). -/

/-- Coordinator and temp-file events of one synthesis call. -/
inductive SynthEv where
  | acquire
  | release
  | fcreate
  | fremove
  | inferCall (ok : Bool)
  deriving DecidableEq

/-- The gate-holding section of `clone_and_synthesize` (everything under
`async with _inference_lock`), for a call with resolved cache key `ck?`. -/
def synthMiss (maxN : Nat) (infer : Option (List Nat)) (ck? : Option String)
    (st : List (String × List Nat)) :
    Option (List Nat) × List (String × List Nat) × List SynthEv :=
  match infer with
  | some wav =>
    let st' := match ck? with
      | some ck => if 0 < maxN then cacheStore maxN st ck wav else st
      | none => st
    (some wav, st', [.acquire, .fcreate, .inferCall true, .fremove, .release])
  | none => (none, st, [.acquire, .fcreate, .inferCall false, .fremove, .release])

/-- `clone_and_synthesize text voice_sample_path` with resolved `key_id`
(`voice_id` when given, else `str(voice_sample_path)`, which is never empty).
Returns the produced bytes (`none` = the call raised), the cache afterwards,
and the event trace. -/
def clone_and_synthesize (digest : String → String) (maxN : Nat)
    (infer : Option (List Nat)) (text keyId : String)
    (st : List (String × List Nat)) :
    Option (List Nat) × List (String × List Nat) × List SynthEv :=
  if keyId = "" then synthMiss maxN infer none st
  else
    match (cacheLookup st (cache_key digest text keyId)).1 with
    | some wav => (some wav, (cacheLookup st (cache_key digest text keyId)).2, [])
    | none => synthMiss maxN infer (some (cache_key digest text keyId)) st

/-! ### Background pre-warm task (voice_clone_server.py, auto_preload_common_phrases)

    voice_ids = get_registered_voice_ids()
    if not voice_ids: return
    target_voice_id = voice_ids[0]          # only the FIRST registered voice
    for text in COMMON_PHRASES:
        if _active_user_requests > 0: ...sleep...; continue   # phrase skipped
        ...preload_one_phrase(text)...      # skipped again if requests active,
                                            # else clone_and_synthesize(...)

`active i` abstracts the value of `_active_user_requests > 0` observed during
iteration `i` (the loop-head check and the in-task check see the same
scheduling window here).  The function returns the final cache and the list of
(voice, phrase) pairs for which `clone_and_synthesize` was attempted. -/

/-- `COMMON_PHRASES` of voice_clone_server.py. -/
def COMMON_PHRASES : List String :=
  ["你好，我是你的数字人助手",
   "今天天气不错，24度晴朗。出门记得戴帽子防晒哦~",
   "好的，我来帮您导航。",
   "好的，我来帮您看看药。",
   "好的，让我们一起看看老照片吧~",
   "不客气，能帮到您是我的荣幸！",
   "抱歉，我没太听清楚，您能再说一遍吗？"]

/-- The `for text in COMMON_PHRASES` loop, for target voice `v0`. -/
def preloadLoop (digest : String → String) (maxN : Nat)
    (infer : String → Option (List Nat)) (v0 : String) (active : Nat → Bool) :
    List String → Nat → List (String × List Nat) →
      List (String × List Nat) × List (String × String)
  | [], _, st => (st, [])
  | t :: ts, i, st =>
    if active i then preloadLoop digest maxN infer v0 active ts (i + 1) st
    else
      let r := clone_and_synthesize digest maxN (infer t) t v0 st
      let rst := preloadLoop digest maxN infer v0 active ts (i + 1) r.2.1
      (rst.1, (v0, t) :: rst.2)

/-- `auto_preload_common_phrases`: nothing to do without registered voices;
otherwise one pass over the phrases for `voice_ids[0]` only. -/
def auto_preload (digest : String → String) (maxN : Nat)
    (infer : String → Option (List Nat)) (voice_ids : List String)
    (active : Nat → Bool) (st : List (String × List Nat)) :
    List (String × List Nat) × List (String × String) :=
  match voice_ids with
  | [] => (st, [])
  | v0 :: _ => preloadLoop digest maxN infer v0 active COMMON_PHRASES 0 st

/-! ## Theorems -/

theorem chunkLoop_closed (csz ov L : Nat) (hov : ov < csz) :
    ∀ fuel s, s + ov < L → L - s ≤ fuel →
      chunkLoop csz ov L fuel s =
        (List.range (nChunksFrom csz ov L s)).map
          (fun i => (s + i * (csz - ov), min (s + i * (csz - ov) + csz) L)) := by
  intro fuel
  induction fuel with
  | zero => intro s hs hf; omega
  | succ fuel ih =>
    intro s hs hf
    have hsL : s < L := by omega
    rw [chunkLoop, if_pos hsL]
    by_cases hA : L ≤ s + csz
    · have hmin : min (s + csz) L = L := Nat.min_eq_right hA
      rw [hmin, if_pos (le_refl L)]
      have hn : nChunksFrom csz ov L s = 1 := by
        unfold nChunksFrom
        have h1 : 1 * (csz - ov) ≤ L - s - ov + (csz - ov) - 1 := by omega
        have h2 : L - s - ov + (csz - ov) - 1 < (1 + 1) * (csz - ov) := by omega
        exact Nat.div_eq_of_lt_le h1 h2
      have hr1 : List.range 1 = [0] := rfl
      rw [hn, hr1, List.map_singleton]
      have h0 : s + 0 * (csz - ov) = s := by ring
      rw [h0, Nat.min_eq_right hA]
    · have hB : s + csz < L := by omega
      have hmin : min (s + csz) L = s + csz := Nat.min_eq_left (le_of_lt hB)
      rw [hmin, if_neg (by omega)]
      have hs' : (s + csz - ov) + ov < L := by omega
      have hf' : L - (s + csz - ov) ≤ fuel := by omega
      rw [ih (s + csz - ov) hs' hf']
      have hcount : nChunksFrom csz ov L s = nChunksFrom csz ov L (s + csz - ov) + 1 := by
        unfold nChunksFrom
        have hm : L - s - ov + (csz - ov) - 1
            = (L - (s + csz - ov) - ov + (csz - ov) - 1) + (csz - ov) := by omega
        rw [hm, Nat.add_div_right _ (by omega : 0 < csz - ov)]
      rw [hcount, List.range_succ_eq_map, List.map_cons, List.map_map]
      congr 1
      · simp [Nat.min_eq_left (le_of_lt hB)]
      · apply List.map_congr_left
        intro i _
        simp only [Function.comp_apply, Nat.succ_eq_add_one]
        have e1 : (i + 1) * (csz - ov) = i * (csz - ov) + (csz - ov) := by ring
        have h1 : s + (i + 1) * (csz - ov) = s + csz - ov + i * (csz - ov) := by omega
        rw [h1]

/-- When the stride is positive and the buffer exceeds the ceiling, the window
list takes the closed form starting at 0. -/
theorem chunkWindows_closed (csz ov L : Nat) (hov : ov < csz) (hL : csz < L) :
    chunkWindows csz ov L =
      (List.range (nChunksFrom csz ov L 0)).map
        (fun i => (i * (csz - ov), min (i * (csz - ov) + csz) L)) := by
  unfold chunkWindows
  rw [chunkLoop_closed csz ov L hov (L + 1) 0 (by omega) (by omega)]
  apply List.map_congr_left
  intro i _
  simp

/-- C1: For every finalized buffer whose length exceeds the chunking ceiling
(`csz < L`, with a positive stride `ov < csz`), the chunk pass partitions it
into exactly `ceil((L - ov) / (csz - ov))` windows; every window except the
last spans exactly `csz` samples, consecutive windows advance by the stride
`csz - ov`, and each consecutive pair shares exactly `ov` samples of audio
(the next window starts `ov` samples before the previous one ends). -/
theorem C1_chunk_partition (csz ov L : Nat) (hov : ov < csz) (hL : csz < L) :
    (chunkWindows csz ov L).length = (L - ov + (csz - ov) - 1) / (csz - ov)
    ∧ (∀ i, i < (chunkWindows csz ov L).length - 1 →
        ((chunkWindows csz ov L)[i]!).2 - ((chunkWindows csz ov L)[i]!).1 = csz)
    ∧ (∀ i, i < (chunkWindows csz ov L).length - 1 →
        ((chunkWindows csz ov L)[i+1]!).1 + ov = ((chunkWindows csz ov L)[i]!).2
        ∧ ((chunkWindows csz ov L)[i]!).1 + (csz - ov) = ((chunkWindows csz ov L)[i+1]!).1) := by
  have hcf := chunkWindows_closed csz ov L hov hL
  set n := nChunksFrom csz ov L 0 with hn
  have hlen : (chunkWindows csz ov L).length = n := by
    rw [hcf]; simp
  have hnum : n = (L - ov + (csz - ov) - 1) / (csz - ov) := by
    simp [hn, nChunksFrom]
  have hbound : ∀ i, i < n - 1 → i * (csz - ov) + csz ≤ L := by
    intro i hi
    have h2 : i + 2 ≤ n := by omega
    rw [hnum] at h2
    have h3 : (i + 2) * (csz - ov) ≤ L - ov + (csz - ov) - 1 :=
      (Nat.le_div_iff_mul_le (by omega : 0 < csz - ov)).mp h2
    have h4 : (i + 2) * (csz - ov) = i * (csz - ov) + 2 * (csz - ov) := by ring
    omega
  have hget : ∀ i, i < n → (chunkWindows csz ov L)[i]! =
      (i * (csz - ov), min (i * (csz - ov) + csz) L) := by
    intro i hi
    have hi' : i < (chunkWindows csz ov L).length := by omega
    rw [getElem!_pos (chunkWindows csz ov L) i hi']
    simp only [hcf]
    rw [List.getElem_map, List.getElem_range]
  refine ⟨by rw [hlen, hnum], ?_, ?_⟩
  · intro i hi
    rw [hlen] at hi
    rw [hget i (by omega)]
    have := hbound i hi
    simp only [Nat.min_eq_left this]
    omega
  · intro i hi
    rw [hlen] at hi
    have hb := hbound i hi
    rw [hget i (by omega), hget (i + 1) (by omega)]
    simp only [Nat.min_eq_left hb]
    have e1 : (i + 1) * (csz - ov) = i * (csz - ov) + (csz - ov) := by ring
    constructor <;> omega

/-- Witness for C1 at small concrete parameters. -/
theorem C1_chunk_partition_witness :
    2 < 5 ∧ 5 < 12 ∧
    ((chunkWindows 5 2 12).length = (12 - 2 + (5 - 2) - 1) / (5 - 2)
    ∧ (∀ i, i < (chunkWindows 5 2 12).length - 1 →
        ((chunkWindows 5 2 12)[i]!).2 - ((chunkWindows 5 2 12)[i]!).1 = 5)
    ∧ (∀ i, i < (chunkWindows 5 2 12).length - 1 →
        ((chunkWindows 5 2 12)[i+1]!).1 + 2 = ((chunkWindows 5 2 12)[i]!).2
        ∧ ((chunkWindows 5 2 12)[i]!).1 + (5 - 2) = ((chunkWindows 5 2 12)[i+1]!).1)) :=
  ⟨by decide, by decide, C1_chunk_partition 5 2 12 (by decide) (by decide)⟩

/-- After `odSet`, some entry has key `k`, and every entry with key `k` holds
value `v`. -/
theorem odSet_key_val (k : String) (v : List Nat) (l : List (String × List Nat)) :
    (∃ p ∈ odSet k v l, p.1 = k) ∧ ∀ p ∈ odSet k v l, p.1 = k → p.2 = v := by
  unfold odSet
  by_cases h : l.any (fun p => p.1 == k)
  · rw [if_pos h]
    obtain ⟨p, hp, hpk⟩ := List.any_eq_true.mp h
    constructor
    · have hmm := List.mem_map_of_mem (fun p => if p.1 == k then (k, v) else p) hp
      simp only [hpk, if_true] at hmm
      exact ⟨(k, v), hmm, rfl⟩
    · intro q hq hqk
      obtain ⟨r, _, hr⟩ := List.mem_map.mp hq
      by_cases hrk : r.1 == k
      · rw [if_pos hrk] at hr; rw [← hr]
      · rw [if_neg hrk] at hr
        subst hr
        exact absurd (beq_iff_eq.mpr hqk) hrk
  · rw [if_neg h]
    constructor
    · exact ⟨(k, v), by simp, rfl⟩
    · intro q hq hqk
      rcases List.mem_append.mp hq with hql | hql
      · exfalso
        exact h (List.any_eq_true.mpr ⟨q, hql, beq_iff_eq.mpr hqk⟩)
      · simp only [List.mem_singleton] at hql
        rw [hql]

/-- Looking up `k` right after moving its entries to the back finds value `v`,
provided all `k`-entries hold `v` and at least one exists. -/
theorem find_after_moveToEnd (k : String) (v : List Nat) (l : List (String × List Nat))
    (hex : ∃ p ∈ l, p.1 = k) (hval : ∀ p ∈ l, p.1 = k → p.2 = v) :
    (odMoveToEnd k l).find? (fun p => p.1 == k) = some (k, v) := by
  unfold odMoveToEnd
  rw [List.find?_append]
  have h1 : (l.filter (fun p => !(p.1 == k))).find? (fun p => p.1 == k) = none := by
    rw [List.find?_eq_none]
    intro p hp
    have := List.of_mem_filter hp
    simpa using this
  rw [h1, Option.none_or]
  obtain ⟨p, hp, hpk⟩ := hex
  have hmem : p ∈ l.filter (fun p => p.1 == k) :=
    List.mem_filter.mpr ⟨hp, beq_iff_eq.mpr hpk⟩
  match hflt : l.filter (fun p => p.1 == k) with
  | [] => rw [hflt] at hmem; cases hmem
  | q :: t =>
    have hq : q ∈ l.filter (fun p => p.1 == k) := by rw [hflt]; exact List.mem_cons_self q t
    have hqk : q.1 = k := by
      have := List.of_mem_filter hq
      simpa using this
    have hqv : q.2 = v := hval q (List.mem_of_mem_filter hq) hqk
    rw [hflt, List.find?_cons]
    have : (fun p => p.1 == k) q = true := beq_iff_eq.mpr hqk
    simp only [this]
    rw [← hqk, ← hqv]

/-- Store followed immediately by lookup of the same key returns the stored
value (for any capacity: the assignment always lands in the dict). -/
theorem cacheStore_lookup (maxN : Nat) (l : List (String × List Nat))
    (k : String) (v : List Nat) :
    (cacheLookup (cacheStore maxN l k v) k).1 = some v := by
  unfold cacheLookup cacheStore
  obtain ⟨hex, hval⟩ := odSet_key_val k v (evictLoop maxN l.length l)
  rw [find_after_moveToEnd k v _ hex hval]

/-- The eviction loop is the identity below capacity. -/
theorem evictLoop_of_lt (maxN : Nat) (fuel : Nat) (l : List (String × List Nat))
    (h : l.length < maxN) : evictLoop maxN fuel l = l := by
  cases fuel with
  | zero => rfl
  | succ f => rw [evictLoop, if_neg (by omega)]

/-- On a cache exactly at capacity, the eviction loop pops exactly the front
entry. -/
theorem evictLoop_at_capacity (maxN : Nat) (l : List (String × List Nat))
    (hpos : 0 < maxN) (hlen : l.length = maxN) :
    evictLoop maxN l.length l = l.tail := by
  cases l with
  | nil => simp at hlen; omega
  | cons p t =>
    have hl : (p :: t).length = t.length + 1 := rfl
    rw [hl, evictLoop, if_pos ⟨by simp at hlen ⊢; omega, by simp⟩]
    exact evictLoop_of_lt maxN t.length t (by simp at hlen; omega)

/-- `odMoveToEnd` permutes the entries, so it preserves the entry count. -/
theorem odMoveToEnd_length (k : String) (l : List (String × List Nat)) :
    (odMoveToEnd k l).length = l.length := by
  unfold odMoveToEnd
  have h := (List.filter_append_perm (fun p => !(p.1 == k)) l).length_eq
  simp only [Bool.not_not] at h
  exact h

/-- `odSet` grows the entry count by at most one. -/
theorem odSet_length (k : String) (v : List Nat) (l : List (String × List Nat)) :
    (odSet k v l).length ≤ l.length + 1 := by
  unfold odSet
  by_cases h : l.any (fun p => p.1 == k)
  · rw [if_pos h]; simp
  · rw [if_neg h]; simp

/-- C4: for the synthesis cache with capacity bound `maxN > 0`, a store of `v`
under key `k` followed immediately by a lookup of `k` returns `v`; inserting a
fresh key into a cache already holding `maxN` entries evicts exactly the
least-recently-accessed (front) entry; and the entry count never exceeds
`maxN` after a store. -/
theorem C4_cache_lru (maxN : Nat) (l : List (String × List Nat))
    (k : String) (v : List Nat) (hpos : 0 < maxN) :
    (cacheLookup (cacheStore maxN l k v) k).1 = some v
    ∧ (l.length = maxN → (∀ p ∈ l, p.1 ≠ k) →
        cacheStore maxN l k v = l.tail ++ [(k, v)])
    ∧ (l.length ≤ maxN → (cacheStore maxN l k v).length ≤ maxN) := by
  refine ⟨cacheStore_lookup maxN l k v, ?_, ?_⟩
  · intro hlen hfresh
    unfold cacheStore
    rw [evictLoop_at_capacity maxN l hpos hlen]
    have hfresh' : ∀ p ∈ l.tail, p.1 ≠ k := fun p hp => hfresh p (List.mem_of_mem_tail hp)
    have hany : l.tail.any (fun p => p.1 == k) = false := by
      rw [List.any_eq_false]
      intro p hp
      simpa using hfresh' p hp
    unfold odSet
    rw [hany]
    simp only [Bool.false_eq_true, if_false]
    unfold odMoveToEnd
    rw [List.filter_append, List.filter_append]
    have h1 : l.tail.filter (fun p => !(p.1 == k)) = l.tail := by
      rw [List.filter_eq_self]
      intro p hp
      simpa using hfresh' p hp
    have h2 : l.tail.filter (fun p => p.1 == k) = [] := by
      rw [List.filter_eq_nil_iff]
      intro p hp
      simpa using hfresh' p hp
    rw [h1, h2]
    simp
  · intro hle
    unfold cacheStore
    rw [odMoveToEnd_length]
    by_cases hfull : l.length = maxN
    · rw [evictLoop_at_capacity maxN l hpos hfull]
      calc (odSet k v l.tail).length ≤ l.tail.length + 1 := odSet_length k v l.tail
        _ ≤ maxN := by
          cases l with
          | nil => simp at hfull; omega
          | cons p t => simp at hfull ⊢; omega
    · have hlt : l.length < maxN := by omega
      rw [evictLoop_of_lt maxN _ l hlt]
      calc (odSet k v l).length ≤ l.length + 1 := odSet_length k v l
        _ ≤ maxN := by omega

/-- Witness for C4 at concrete inputs: capacity 1, one stale entry. -/
theorem C4_cache_lru_witness :
    0 < 1
    ∧ (cacheLookup (cacheStore 1 [("b", [5] )] "a" [7] ) "a").1 = some [7]
    ∧ cacheStore 1 [("b", [5] )] "a" [7] = [("b", [5] )].tail ++ [("a", [7] )]
    ∧ (cacheStore 1 [("b", [5] )] "a" [7] ).length ≤ 1 := by
  have h := C4_cache_lru 1 [("b", [5] )] "a" [7] (by decide)
  exact ⟨by decide, h.1, h.2.1 (by decide) (by decide), h.2.2 (by decide)⟩

/-- C10: the synthesis cache key function is not injective on
(text, voiceId) pairs: the distinct pairs ("a|b", "c") and ("a", "b|c")
collide for every digest function, and a lookup under one pair returns the
audio stored under the other. -/
theorem C10_cache_key_collision (digest : String → String) :
    cache_key digest "a|b" "c" = cache_key digest "a" "b|c"
    ∧ (("a|b", "c") : String × String) ≠ ("a", "b|c")
    ∧ ∀ v maxN l, (cacheLookup
        (cacheStore maxN l (cache_key digest "a|b" "c") v)
        (cache_key digest "a" "b|c")).1 = some v := by
  have hkey : cache_key digest "a|b" "c" = cache_key digest "a" "b|c" := rfl
  refine ⟨hkey, by decide, ?_⟩
  intro v maxN l
  rw [← hkey]
  exact cacheStore_lookup maxN l (cache_key digest "a|b" "c") v

/-! Character-class facts for the normalization analysis. -/

theorem punct2_nonspace (c : Char) (h : isPunct2 c = true) : pySpace c = false := by
  simp only [isPunct2, Bool.or_eq_true, beq_iff_eq] at h
  rcases h with ((h | h) | h) | h <;> subst h <;> decide

theorem stop1_nonspace (c : Char) (h : isStop1 c = true) : pySpace c = false := by
  simp only [isStop1, Bool.or_eq_true, beq_iff_eq] at h
  rcases h with (h | h) | h <;> subst h <;> decide

theorem stop1_punct2 (c : Char) (h : isStop1 c = true) : isPunct2 c = true := by
  simp only [isStop1, Bool.or_eq_true, beq_iff_eq] at h
  rcases h with (h | h) | h <;> subst h <;> decide

theorem space_not_punct2 (c : Char) (h : pySpace c = true) : isPunct2 c = false := by
  by_cases hp : isPunct2 c = true
  · rw [punct2_nonspace c hp] at h; cases h
  · exact Bool.not_eq_true _ ▸ Bool.of_not_eq_true hp

/-! Small list facts. -/

theorem head?_dropWhile (p : Char → Bool) (l : List Char) :
    ∀ d ∈ (l.dropWhile p).head?, p d = false := by
  induction l with
  | nil => intro d hd; cases hd
  | cons c rest ih =>
    intro d hd
    rw [List.dropWhile_cons] at hd
    by_cases hc : p c = true
    · rw [if_pos hc] at hd; exact ih d hd
    · rw [if_neg hc] at hd
      simp only [List.head?_cons, Option.mem_def, Option.some.injEq] at hd
      subst hd
      exact Bool.not_eq_true _ ▸ Bool.of_not_eq_true hc

theorem dropWhile_eq_self_of_head (p : Char → Bool) (l : List Char)
    (h : ∀ c ∈ l.head?, p c = false) : l.dropWhile p = l := by
  cases l with
  | nil => rfl
  | cons c rest =>
    have hc : p c = false := h c (by simp)
    rw [List.dropWhile_cons, if_neg (by simp [hc])]

theorem getLast?_of_suffix {l' l : List Char} (h : l' <:+ l) (hne : l' ≠ []) :
    l.getLast? = l'.getLast? := by
  obtain ⟨pre, rfl⟩ := h
  rw [List.getLast?_append]
  cases hl : l'.getLast? with
  | some x => rfl
  | none => exact absurd (List.getLast?_eq_none_iff.mp hl) hne

/-- If `dropWhile p` reaches head `d` after actually dropping something, the
last dropped element `a` satisfies `p` and is `R`-adjacent to `d` in a
`Chain' R` list. -/
theorem chain'_head_dropWhile (R : Char → Char → Prop) (p : Char → Bool) :
    ∀ (l : List Char) (d : Char), l.Chain' R → (l.dropWhile p).head? = some d →
      l.dropWhile p = l ∨ ∃ a, p a = true ∧ R a d := by
  intro l
  induction l with
  | nil => intro d _ hd; rw [List.dropWhile_nil] at hd; cases hd
  | cons c rest ih =>
    intro d hch hd
    by_cases hc : p c = true
    · right
      rw [List.dropWhile_cons, if_pos hc] at hd
      by_cases hself : rest.dropWhile p = rest
      · rw [hself] at hd
        exact ⟨c, hc, (List.chain'_cons'.mp hch).1 d hd⟩
      · rcases ih d (List.chain'_cons'.mp hch).2 hd with heq | hex
        · exact absurd heq hself
        · exact hex
    · left
      rw [List.dropWhile_cons, if_neg (by simp [Bool.of_not_eq_true hc])]

/-! Unfolding equations of the three scans. -/

theorem sub1_nil (f : Nat) : sub1 f [] = [] := by cases f <;> rfl

theorem sub1_cons (fuel : Nat) (c : Char) (rest : List Char) :
    sub1 (fuel + 1) (c :: rest) =
      if isStop1 c && ((rest.dropWhile pySpace).head? == some c) then
        c :: sub1 fuel ((rest.dropWhile pySpace).dropWhile (fun x => x == c))
      else c :: sub1 fuel rest := rfl

theorem sub2_nil (f : Nat) : sub2 f [] = [] := by cases f <;> rfl

theorem sub2_cons (fuel : Nat) (c : Char) (rest : List Char) :
    sub2 (fuel + 1) (c :: rest) =
      if pySpace c then ' ' :: sub2 fuel (rest.dropWhile pySpace)
      else c :: sub2 fuel rest := rfl

theorem sub3_nil (f : Nat) : sub3 f [] = [] := by cases f <;> rfl

theorem sub3_cons (fuel : Nat) (c : Char) (rest : List Char) :
    sub3 (fuel + 1) (c :: rest) =
      if pySpace c && punctHead (rest.dropWhile pySpace) then
        (rest.dropWhile pySpace).headD ' ' :: sub3 fuel (rest.dropWhile pySpace).tail
      else c :: sub3 fuel rest := rfl

/-! Heads of the scan outputs. -/

/-- `sub1` always keeps the head character. -/
theorem sub1_head? (f : Nat) (l : List Char) (hf : l.length ≤ f) :
    (sub1 f l).head? = l.head? := by
  cases l with
  | nil => rw [sub1_nil]
  | cons c rest =>
    cases f with
    | zero => simp at hf
    | succ f =>
      rw [sub1_cons]
      by_cases h : (isStop1 c && ((rest.dropWhile pySpace).head? == some c)) = true
      · rw [if_pos h]; rfl
      · rw [if_neg h]; rfl

/-- `sub2` keeps a non-whitespace head. -/
theorem sub2_head_nonspace (f : Nat) (c : Char) (rest : List Char)
    (hf : rest.length + 1 ≤ f) (hc : pySpace c = false) :
    (sub2 f (c :: rest)).head? = some c := by
  cases f with
  | zero => simp at hf
  | succ f => rw [sub2_cons, if_neg (by simp [hc])]; rfl

/-- `sub3` keeps a non-whitespace head. -/
theorem sub3_head_nonspace (f : Nat) (c : Char) (rest : List Char)
    (hf : rest.length + 1 ≤ f) (hc : pySpace c = false) :
    (sub3 f (c :: rest)).head? = some c := by
  cases f with
  | zero => simp at hf
  | succ f => rw [sub3_cons, if_neg (by simp [hc])]; rfl

/-! The scans only delete characters (sublist facts). -/

theorem sub1_sublist : ∀ (f : Nat) (l : List Char), (sub1 f l).Sublist l := by
  intro f
  induction f with
  | zero => intro l; simp [sub1]
  | succ f ih =>
    intro l
    cases l with
    | nil => rw [sub1_nil]
    | cons c rest =>
      rw [sub1_cons]
      by_cases h : (isStop1 c && ((rest.dropWhile pySpace).head? == some c)) = true
      · rw [if_pos h]
        refine List.Sublist.cons₂ c ?_
        exact (ih _).trans ((List.dropWhile_suffix _).sublist.trans
          (List.dropWhile_suffix _).sublist)
      · rw [if_neg h]
        exact List.Sublist.cons₂ c (ih rest)

theorem sub3_sublist : ∀ (f : Nat) (l : List Char), (sub3 f l).Sublist l := by
  intro f
  induction f with
  | zero => intro l; simp [sub3]
  | succ f ih =>
    intro l
    cases l with
    | nil => rw [sub3_nil]
    | cons c rest =>
      rw [sub3_cons]
      by_cases h : (pySpace c && punctHead (rest.dropWhile pySpace)) = true
      · rw [if_pos h]
        have hsub : ((rest.dropWhile pySpace).headD ' ' :: (rest.dropWhile pySpace).tail).Sublist
            (c :: rest) := by
          cases hdw : rest.dropWhile pySpace with
          | nil =>
            simp only [Bool.and_eq_true] at h
            simp [punctHead, hdw] at h
          | cons d tl =>
            simp only [List.headD_cons, List.tail_cons]
            refine List.Sublist.cons c ?_
            exact (hdw ▸ List.dropWhile_suffix pySpace).sublist
        refine List.Sublist.trans ?_ hsub
        exact List.Sublist.cons₂ _ (ih _)
      · rw [if_neg h]
        exact List.Sublist.cons₂ c (ih rest)

theorem sub2_subset_blank : ∀ (f : Nat) (l : List Char), ∀ c ∈ sub2 f l, c = ' ' ∨ c ∈ l := by
  intro f
  induction f with
  | zero => intro l c hc; simp [sub2] at hc
  | succ f ih =>
    intro l c hc
    cases l with
    | nil => rw [sub2_nil] at hc; cases hc
    | cons a rest =>
      rw [sub2_cons] at hc
      by_cases h : pySpace a = true
      · rw [if_pos h] at hc
        rcases List.mem_cons.mp hc with hc | hc
        · left; exact hc
        · rcases ih _ c hc with hc | hc
          · left; exact hc
          · right
            exact List.mem_cons_of_mem a ((List.dropWhile_suffix pySpace).sublist.subset hc)
      · rw [if_neg h] at hc
        rcases List.mem_cons.mp hc with hc | hc
        · right; rw [hc]; exact List.mem_cons_self a rest
        · rcases ih _ c hc with hc | hc
          · left; exact hc
          · right; exact List.mem_cons_of_mem a hc

/-! Invariants established by `sub2` (whitespace-run collapse). -/

theorem sub2_blank_noAdj : ∀ (f : Nat) (l : List Char), l.length ≤ f →
    allSpacesBlank (sub2 f l) ∧ noAdjWS (sub2 f l) := by
  intro f
  induction f with
  | zero =>
    intro l h
    constructor
    · intro c hc; simp [sub2] at hc
    · show List.Chain' _ (sub2 0 l)
      simp [sub2]
  | succ f ih =>
    intro l h
    cases l with
    | nil =>
      rw [sub2_nil]
      exact ⟨(by intro c hc; cases hc), List.chain'_nil⟩
    | cons c rest =>
      have hrlen : rest.length ≤ f := by simp at h; omega
      rw [sub2_cons]
      by_cases hc : pySpace c = true
      · rw [if_pos hc]
        have hlen : (rest.dropWhile pySpace).length ≤ f :=
          le_trans (List.dropWhile_suffix pySpace).sublist.length_le hrlen
        obtain ⟨ihb, iha⟩ := ih (rest.dropWhile pySpace) hlen
        constructor
        · intro x hx
          rcases List.mem_cons.mp hx with hx | hx
          · intro _; exact hx
          · exact ihb x hx
        · show List.Chain' _ (' ' :: sub2 f (rest.dropWhile pySpace))
          rw [List.chain'_cons']
          refine ⟨?_, iha⟩
          intro b hb
          cases hrest : rest.dropWhile pySpace with
          | nil => rw [hrest, sub2_nil] at hb; cases hb
          | cons d tl =>
            have hd : pySpace d = false :=
              head?_dropWhile pySpace rest d (by rw [hrest]; rfl)
            rw [hrest] at hb
            rw [sub2_head_nonspace f d tl (by rw [hrest] at hlen; simpa using hlen) hd] at hb
            simp only [Option.mem_def, Option.some.injEq] at hb
            subst hb
            intro hcontra
            rw [hd] at hcontra
            exact absurd hcontra.2 (by simp)
      · rw [if_neg hc]
        have hc' : pySpace c = false := Bool.not_eq_true _ ▸ Bool.of_not_eq_true hc
        obtain ⟨ihb, iha⟩ := ih rest hrlen
        constructor
        · intro x hx
          rcases List.mem_cons.mp hx with hx | hx
          · subst hx; intro hxc; rw [hc'] at hxc; cases hxc
          · exact ihb x hx
        · show List.Chain' _ (c :: sub2 f rest)
          rw [List.chain'_cons']
          refine ⟨?_, iha⟩
          intro b _
          intro hcontra
          rw [hc'] at hcontra
          exact absurd hcontra.1 (by simp)

/-! Invariants of `stripWS`. -/

theorem stripWS_subset (l : List Char) : ∀ c ∈ stripWS l, c ∈ l := by
  intro c hc
  unfold stripWS at hc
  rw [List.mem_reverse] at hc
  have h1 := (List.dropWhile_suffix pySpace).sublist.subset hc
  rw [List.mem_reverse] at h1
  exact (List.dropWhile_suffix pySpace).sublist.subset h1

theorem stripWS_blank (l : List Char) (h : allSpacesBlank l) :
    allSpacesBlank (stripWS l) :=
  fun c hc => h c (stripWS_subset l c hc)

theorem stripWS_noAdj (l : List Char) (h : noAdjWS l) : noAdjWS (stripWS l) := by
  unfold noAdjWS at *
  unfold stripWS
  rw [List.chain'_reverse]
  have h1 := h.suffix (List.dropWhile_suffix pySpace)
  have h2 : ((l.dropWhile pySpace).reverse.Chain'
      (flip fun a b => ¬(pySpace a = true ∧ pySpace b = true))) := by
    rw [List.chain'_reverse]
    exact h1.imp (fun a b hab => hab)
  have h3 := h2.suffix (List.dropWhile_suffix pySpace)
  exact h3.imp (fun a b hab => hab)

theorem stripWS_noEdge (l : List Char) : noEdgeWS (stripWS l) := by
  constructor
  · intro c hc
    unfold stripWS at hc
    rw [List.head?_reverse] at hc
    have hne : (l.dropWhile pySpace).reverse.dropWhile pySpace ≠ [] := by
      intro hnil
      rw [hnil] at hc
      cases hc
    have heq := getLast?_of_suffix (List.dropWhile_suffix pySpace
      (l := (l.dropWhile pySpace).reverse)) hne
    rw [← heq, List.getLast?_reverse] at hc
    exact head?_dropWhile pySpace l c hc
  · intro c hc
    unfold stripWS at hc
    rw [List.getLast?_reverse] at hc
    exact head?_dropWhile pySpace _ c hc

/-! Invariants of `sub3` (whitespace-before-punctuation removal). -/

theorem punctHead_cons (d : Char) (tl : List Char) :
    punctHead (d :: tl) = isPunct2 d := rfl

theorem getLast?_cons_of_ne_nil (a : Char) (rest : List Char) (hne : rest ≠ []) :
    (a :: rest).getLast? = rest.getLast? :=
  getLast?_of_suffix (List.suffix_cons a rest) hne

theorem sub3_ne_nil (f : Nat) (c : Char) (rest : List Char) :
    sub3 (f + 1) (c :: rest) ≠ [] := by
  rw [sub3_cons]
  by_cases h : (pySpace c && punctHead (rest.dropWhile pySpace)) = true
  · rw [if_pos h]; simp
  · rw [if_neg h]; simp

theorem sub3_noAdj : ∀ (f : Nat) (l : List Char), l.length ≤ f → noAdjWS l →
    noAdjWS (sub3 f l) := by
  intro f
  induction f with
  | zero =>
    intro l _ _
    show List.Chain' _ (sub3 0 l)
    simp [sub3]
  | succ f ih =>
    intro l h hA
    cases l with
    | nil => rw [sub3_nil]; exact List.chain'_nil
    | cons c rest =>
      have hrlen : rest.length ≤ f := by simp at h; omega
      have hAr : noAdjWS rest := (List.chain'_cons'.mp hA).2
      rw [sub3_cons]
      by_cases hcond : (pySpace c && punctHead (rest.dropWhile pySpace)) = true
      · rw [if_pos hcond]
        have hand := hcond
        rw [Bool.and_eq_true] at hand
        obtain ⟨hsp, hpunct⟩ := hand
        cases hdw : rest.dropWhile pySpace with
        | nil => rw [hdw] at hpunct; simp [punctHead] at hpunct
        | cons d tl =>
          simp only [List.headD_cons, List.tail_cons]
          have hdp : isPunct2 d = true := by rw [hdw, punctHead_cons] at hpunct; exact hpunct
          have hdns : pySpace d = false := punct2_nonspace d hdp
          have htlen : tl.length ≤ f := by
            have h2 := (List.dropWhile_suffix pySpace (l := rest)).sublist.length_le
            rw [hdw] at h2; simp at h2; omega
          have hAtl : noAdjWS tl := by
            have h3 := hAr.suffix (List.dropWhile_suffix pySpace)
            rw [hdw] at h3
            exact (List.chain'_cons'.mp h3).2
          show List.Chain' _ (d :: sub3 f tl)
          rw [List.chain'_cons']
          refine ⟨?_, ih tl htlen hAtl⟩
          intro b _ hcontra
          rw [hdns] at hcontra
          exact absurd hcontra.1 (by simp)
      · rw [if_neg hcond]
        show List.Chain' _ (c :: sub3 f rest)
        rw [List.chain'_cons']
        refine ⟨?_, ih rest hrlen hAr⟩
        intro b hb
        by_cases hcs : pySpace c = true
        · cases rest with
          | nil => rw [sub3_nil] at hb; cases hb
          | cons e tl2 =>
            have hce := (List.chain'_cons'.mp hA).1 e rfl
            have hens : pySpace e = false := by
              by_cases he : pySpace e = true
              · exact absurd ⟨hcs, he⟩ hce
              · exact Bool.not_eq_true _ ▸ Bool.of_not_eq_true he
            rw [sub3_head_nonspace f e tl2 (by simpa using hrlen) hens] at hb
            simp only [Option.mem_def, Option.some.injEq] at hb
            subst hb
            intro hcontra
            rw [hens] at hcontra
            exact absurd hcontra.2 (by simp)
        · intro hcontra
          exact absurd hcontra.1 hcs

theorem sub3_last_nonspace : ∀ (f : Nat) (l : List Char), l.length ≤ f →
    (∀ c ∈ l.getLast?, pySpace c = false) →
    ∀ c ∈ (sub3 f l).getLast?, pySpace c = false := by
  intro f
  induction f with
  | zero =>
    intro l _ _ c hc
    rw [show sub3 0 l = [] from rfl] at hc
    simp at hc
  | succ f ih =>
    intro l h hlast c hc
    cases l with
    | nil => rw [sub3_nil] at hc; simp at hc
    | cons a rest =>
      have hrlen : rest.length ≤ f := by simp at h; omega
      rw [sub3_cons] at hc
      by_cases hcond : (pySpace a && punctHead (rest.dropWhile pySpace)) = true
      · rw [if_pos hcond] at hc
        have hand := hcond
        rw [Bool.and_eq_true] at hand
        obtain ⟨hsp, hpunct⟩ := hand
        cases hdw : rest.dropWhile pySpace with
        | nil => rw [hdw] at hpunct; simp [punctHead] at hpunct
        | cons d tl =>
          rw [hdw] at hc
          simp only [List.headD_cons, List.tail_cons] at hc
          have hdp : isPunct2 d = true := by rw [hdw, punctHead_cons] at hpunct; exact hpunct
          have hrne : rest ≠ [] := by
            intro hr; rw [hr] at hdw; simp at hdw
          cases hout : sub3 f tl with
          | nil =>
            rw [hout] at hc
            simp only [List.getLast?_singleton, Option.mem_def, Option.some.injEq] at hc
            cases hc
            exact punct2_nonspace _ hdp
          | cons x xs =>
            rw [hout, getLast?_cons_of_ne_nil d (x :: xs) (by simp), ← hout] at hc
            have htlne : tl ≠ [] := by
              intro htl
              rw [htl, sub3_nil] at hout
              cases hout
            have htlen : tl.length ≤ f := by
              have h2 := (List.dropWhile_suffix pySpace (l := rest)).sublist.length_le
              rw [hdw] at h2; simp at h2; omega
            refine ih tl htlen ?_ c hc
            intro y hy
            apply hlast y
            rw [getLast?_cons_of_ne_nil a rest hrne,
              getLast?_of_suffix (hdw ▸ List.dropWhile_suffix pySpace (l := rest)) (by simp),
              getLast?_cons_of_ne_nil d tl htlne]
            exact hy
      · rw [if_neg hcond] at hc
        cases rest with
        | nil =>
          rw [sub3_nil] at hc
          simp only [List.getLast?_singleton, Option.mem_def, Option.some.injEq] at hc
          cases hc
          exact hlast _ rfl
        | cons e tl2 =>
          have hne : sub3 f (e :: tl2) ≠ [] := by
            cases f with
            | zero => simp at hrlen
            | succ f' => exact sub3_ne_nil f' e tl2
          rw [getLast?_cons_of_ne_nil a (sub3 f (e :: tl2)) hne] at hc
          refine ih (e :: tl2) hrlen ?_ c hc
          intro y hy
          apply hlast y
          rw [getLast?_cons_of_ne_nil a (e :: tl2) (by simp)]
          exact hy

theorem sub3_head_notPunct (f : Nat) (l : List Char) (hf : l.length ≤ f)
    (h : punctHead (l.dropWhile pySpace) = false) :
    ∀ e ∈ (sub3 f l).head?, isPunct2 e = false := by
  intro e he
  cases l with
  | nil => rw [sub3_nil] at he; simp at he
  | cons c rest =>
    cases f with
    | zero => simp at hf
    | succ f =>
      rw [sub3_cons] at he
      by_cases hcs : pySpace c = true
      · have hdw : (c :: rest).dropWhile pySpace = rest.dropWhile pySpace := by
          rw [List.dropWhile_cons, if_pos hcs]
        rw [hdw] at h
        rw [if_neg (by simp [h])] at he
        simp only [List.head?_cons, Option.mem_def, Option.some.injEq] at he
        cases he
        exact space_not_punct2 _ hcs
      · have hcs' : pySpace c = false := Bool.not_eq_true _ ▸ Bool.of_not_eq_true hcs
        have hdw : (c :: rest).dropWhile pySpace = c :: rest := by
          rw [List.dropWhile_cons, if_neg (by simp [hcs'])]
        rw [hdw, punctHead_cons] at h
        rw [if_neg (by simp [hcs'])] at he
        simp only [List.head?_cons, Option.mem_def, Option.some.injEq] at he
        cases he
        exact h

theorem sub3_noWSPunct : ∀ (f : Nat) (l : List Char), l.length ≤ f →
    noWSPunct (sub3 f l) := by
  intro f
  induction f with
  | zero =>
    intro l _
    show List.Chain' _ (sub3 0 l)
    simp [sub3]
  | succ f ih =>
    intro l h
    cases l with
    | nil => rw [sub3_nil]; exact List.chain'_nil
    | cons c rest =>
      have hrlen : rest.length ≤ f := by simp at h; omega
      rw [sub3_cons]
      by_cases hcond : (pySpace c && punctHead (rest.dropWhile pySpace)) = true
      · rw [if_pos hcond]
        have hand := hcond
        rw [Bool.and_eq_true] at hand
        obtain ⟨hsp, hpunct⟩ := hand
        cases hdw : rest.dropWhile pySpace with
        | nil => rw [hdw] at hpunct; simp [punctHead] at hpunct
        | cons d tl =>
          simp only [List.headD_cons, List.tail_cons]
          have hdp : isPunct2 d = true := by rw [hdw, punctHead_cons] at hpunct; exact hpunct
          have hdns : pySpace d = false := punct2_nonspace d hdp
          have htlen : tl.length ≤ f := by
            have h2 := (List.dropWhile_suffix pySpace (l := rest)).sublist.length_le
            rw [hdw] at h2; simp at h2; omega
          show List.Chain' _ (d :: sub3 f tl)
          rw [List.chain'_cons']
          refine ⟨?_, ih tl htlen⟩
          intro b _ hsp2
          rw [hdns] at hsp2
          cases hsp2
      · rw [if_neg hcond]
        show List.Chain' _ (c :: sub3 f rest)
        rw [List.chain'_cons']
        refine ⟨?_, ih rest hrlen⟩
        intro b hb hcs
        have hph : punctHead (rest.dropWhile pySpace) = false := by
          rw [hcs] at hcond
          simp only [Bool.true_and] at hcond
          exact Bool.not_eq_true _ ▸ Bool.of_not_eq_true hcond
        exact sub3_head_notPunct f rest hrlen hph b hb

/-! Invariants of `sub1` (duplicate sentence-mark collapse). -/

theorem sub1_ne_nil (f : Nat) (c : Char) (rest : List Char) :
    sub1 (f + 1) (c :: rest) ≠ [] := by
  rw [sub1_cons]
  by_cases h : (isStop1 c && ((rest.dropWhile pySpace).head? == some c)) = true
  · rw [if_pos h]; simp
  · rw [if_neg h]; simp

theorem sub1_noAdj : ∀ (f : Nat) (l : List Char), l.length ≤ f → noAdjWS l →
    noAdjWS (sub1 f l) := by
  intro f
  induction f with
  | zero =>
    intro l _ _
    show List.Chain' _ (sub1 0 l)
    simp [sub1]
  | succ f ih =>
    intro l h hA
    cases l with
    | nil => rw [sub1_nil]; exact List.chain'_nil
    | cons c rest =>
      have hrlen : rest.length ≤ f := by simp at h; omega
      have hAr : noAdjWS rest := (List.chain'_cons'.mp hA).2
      rw [sub1_cons]
      by_cases hcond : (isStop1 c && ((rest.dropWhile pySpace).head? == some c)) = true
      · rw [if_pos hcond]
        have hand := hcond
        rw [Bool.and_eq_true] at hand
        obtain ⟨hstop, _⟩ := hand
        have hcs : pySpace c = false := stop1_nonspace c hstop
        have hsuf : ((rest.dropWhile pySpace).dropWhile (fun x => x == c)) <:+ rest :=
          (List.dropWhile_suffix _).trans (List.dropWhile_suffix _)
        have hlen2 : ((rest.dropWhile pySpace).dropWhile (fun x => x == c)).length ≤ f :=
          le_trans hsuf.sublist.length_le hrlen
        show List.Chain' _ (c :: sub1 f _)
        rw [List.chain'_cons']
        refine ⟨?_, ih _ hlen2 (hAr.suffix hsuf)⟩
        intro b _ hcontra
        rw [hcs] at hcontra
        exact absurd hcontra.1 (by simp)
      · rw [if_neg hcond]
        show List.Chain' _ (c :: sub1 f rest)
        rw [List.chain'_cons']
        refine ⟨?_, ih rest hrlen hAr⟩
        intro b hb
        by_cases hcs : pySpace c = true
        · cases rest with
          | nil => rw [sub1_nil] at hb; cases hb
          | cons e tl =>
            have hce := (List.chain'_cons'.mp hA).1 e rfl
            have hens : pySpace e = false := by
              by_cases he : pySpace e = true
              · exact absurd ⟨hcs, he⟩ hce
              · exact Bool.not_eq_true _ ▸ Bool.of_not_eq_true he
            rw [sub1_head? f (e :: tl) (by simpa using hrlen)] at hb
            simp only [List.head?_cons, Option.mem_def, Option.some.injEq] at hb
            cases hb
            intro hcontra
            rw [hens] at hcontra
            exact absurd hcontra.2 (by simp)
        · intro hcontra
          exact absurd hcontra.1 hcs

theorem sub1_noWSPunct : ∀ (f : Nat) (l : List Char), l.length ≤ f → noWSPunct l →
    noWSPunct (sub1 f l) := by
  intro f
  induction f with
  | zero =>
    intro l _ _
    show List.Chain' _ (sub1 0 l)
    simp [sub1]
  | succ f ih =>
    intro l h hP
    cases l with
    | nil => rw [sub1_nil]; exact List.chain'_nil
    | cons c rest =>
      have hrlen : rest.length ≤ f := by simp at h; omega
      have hPr : noWSPunct rest := (List.chain'_cons'.mp hP).2
      rw [sub1_cons]
      by_cases hcond : (isStop1 c && ((rest.dropWhile pySpace).head? == some c)) = true
      · rw [if_pos hcond]
        have hand := hcond
        rw [Bool.and_eq_true] at hand
        obtain ⟨hstop, _⟩ := hand
        have hcs : pySpace c = false := stop1_nonspace c hstop
        have hsuf : ((rest.dropWhile pySpace).dropWhile (fun x => x == c)) <:+ rest :=
          (List.dropWhile_suffix _).trans (List.dropWhile_suffix _)
        have hlen2 : ((rest.dropWhile pySpace).dropWhile (fun x => x == c)).length ≤ f :=
          le_trans hsuf.sublist.length_le hrlen
        show List.Chain' _ (c :: sub1 f _)
        rw [List.chain'_cons']
        refine ⟨?_, ih _ hlen2 (hPr.suffix hsuf)⟩
        intro b _ hsp
        rw [hcs] at hsp
        cases hsp
      · rw [if_neg hcond]
        show List.Chain' _ (c :: sub1 f rest)
        rw [List.chain'_cons']
        refine ⟨?_, ih rest hrlen hPr⟩
        intro b hb hsp
        cases rest with
        | nil => rw [sub1_nil] at hb; cases hb
        | cons e tl =>
          have hce := (List.chain'_cons'.mp hP).1 e rfl
          rw [sub1_head? f (e :: tl) (by simpa using hrlen)] at hb
          simp only [List.head?_cons, Option.mem_def, Option.some.injEq] at hb
          cases hb
          exact hce hsp

theorem sub1_last_nonspace : ∀ (f : Nat) (l : List Char), l.length ≤ f →
    (∀ c ∈ l.getLast?, pySpace c = false) →
    ∀ c ∈ (sub1 f l).getLast?, pySpace c = false := by
  intro f
  induction f with
  | zero =>
    intro l _ _ c hc
    rw [show sub1 0 l = [] from rfl] at hc
    simp at hc
  | succ f ih =>
    intro l h hlast c hc
    cases l with
    | nil => rw [sub1_nil] at hc; simp at hc
    | cons a rest =>
      have hrlen : rest.length ≤ f := by simp at h; omega
      rw [sub1_cons] at hc
      by_cases hcond : (isStop1 a && ((rest.dropWhile pySpace).head? == some a)) = true
      · rw [if_pos hcond] at hc
        have hand := hcond
        rw [Bool.and_eq_true] at hand
        obtain ⟨hstop, _⟩ := hand
        have hsuf : ((rest.dropWhile pySpace).dropWhile (fun x => x == a)) <:+ rest :=
          (List.dropWhile_suffix _).trans (List.dropWhile_suffix _)
        have hlen2 : ((rest.dropWhile pySpace).dropWhile (fun x => x == a)).length ≤ f :=
          le_trans hsuf.sublist.length_le hrlen
        cases hout : sub1 f ((rest.dropWhile pySpace).dropWhile (fun x => x == a)) with
        | nil =>
          rw [hout] at hc
          simp only [List.getLast?_singleton, Option.mem_def, Option.some.injEq] at hc
          cases hc
          exact stop1_nonspace _ hstop
        | cons x xs =>
          rw [hout, getLast?_cons_of_ne_nil a (x :: xs) (by simp), ← hout] at hc
          have hne2 : ((rest.dropWhile pySpace).dropWhile (fun x => x == a)) ≠ [] := by
            intro hnil
            rw [hnil, sub1_nil] at hout
            cases hout
          refine ih _ hlen2 ?_ c hc
          intro y hy
          apply hlast y
          have hrne : rest ≠ [] := by
            intro hr
            apply hne2
            rw [hr]
            simp
          rw [getLast?_cons_of_ne_nil a rest hrne, getLast?_of_suffix hsuf hne2]
          exact hy
      · rw [if_neg hcond] at hc
        cases rest with
        | nil =>
          rw [sub1_nil] at hc
          simp only [List.getLast?_singleton, Option.mem_def, Option.some.injEq] at hc
          cases hc
          exact hlast _ rfl
        | cons e tl =>
          have hne : sub1 f (e :: tl) ≠ [] := by
            cases f with
            | zero => simp at hrlen
            | succ f' => exact sub1_ne_nil f' e tl
          rw [getLast?_cons_of_ne_nil a (sub1 f (e :: tl)) hne] at hc
          refine ih (e :: tl) hrlen ?_ c hc
          intro y hy
          apply hlast y
          rw [getLast?_cons_of_ne_nil a (e :: tl) (by simp)]
          exact hy

theorem sub1_noDupStop : ∀ (f : Nat) (l : List Char), l.length ≤ f →
    noDupStop (sub1 f l) := by
  intro f
  induction f with
  | zero =>
    intro l _
    show List.Chain' _ (sub1 0 l)
    simp [sub1]
  | succ f ih =>
    intro l h
    cases l with
    | nil => rw [sub1_nil]; exact List.chain'_nil
    | cons c rest =>
      have hrlen : rest.length ≤ f := by simp at h; omega
      rw [sub1_cons]
      by_cases hcond : (isStop1 c && ((rest.dropWhile pySpace).head? == some c)) = true
      · rw [if_pos hcond]
        have hsuf : ((rest.dropWhile pySpace).dropWhile (fun x => x == c)) <:+ rest :=
          (List.dropWhile_suffix _).trans (List.dropWhile_suffix _)
        have hlen2 : ((rest.dropWhile pySpace).dropWhile (fun x => x == c)).length ≤ f :=
          le_trans hsuf.sublist.length_le hrlen
        show List.Chain' _ (c :: sub1 f _)
        rw [List.chain'_cons']
        refine ⟨?_, ih _ hlen2⟩
        intro b hb _
        rw [sub1_head? f _ hlen2] at hb
        have hbne := head?_dropWhile (fun x => x == c) (rest.dropWhile pySpace) b hb
        intro heq
        rw [← heq] at hbne
        simp at hbne
      · rw [if_neg hcond]
        show List.Chain' _ (c :: sub1 f rest)
        rw [List.chain'_cons']
        refine ⟨?_, ih rest hrlen⟩
        intro b hb hstop heq
        rw [sub1_head? f rest hrlen] at hb
        subst heq
        have hcs : pySpace c = false := stop1_nonspace c hstop
        have hdw : rest.dropWhile pySpace = rest := by
          apply dropWhile_eq_self_of_head
          intro x hx
          rw [hb] at hx
          cases hx
          exact hcs
        apply hcond
        rw [Bool.and_eq_true]
        refine ⟨hstop, ?_⟩
        rw [hdw]
        rw [Option.mem_def] at hb
        rw [hb]
        simp

/-! Each scan is the identity on text satisfying the matching invariants. -/

theorem sub2_id : ∀ (f : Nat) (l : List Char), l.length ≤ f →
    allSpacesBlank l → noAdjWS l → sub2 f l = l := by
  intro f
  induction f with
  | zero =>
    intro l h _ _
    cases l with
    | nil => rfl
    | cons c rest => simp at h
  | succ f ih =>
    intro l h hb hA
    cases l with
    | nil => rw [sub2_nil]
    | cons c rest =>
      have hrlen : rest.length ≤ f := by simp at h; omega
      have hbr : allSpacesBlank rest := fun x hx => hb x (List.mem_cons_of_mem c hx)
      have hAr : noAdjWS rest := (List.chain'_cons'.mp hA).2
      rw [sub2_cons]
      by_cases hcs : pySpace c = true
      · rw [if_pos hcs]
        have hc' : c = ' ' := hb c (List.mem_cons_self c rest) hcs
        have hdw : rest.dropWhile pySpace = rest := by
          apply dropWhile_eq_self_of_head
          intro x hx
          have hcx := (List.chain'_cons'.mp hA).1 x hx
          by_cases hxs : pySpace x = true
          · exact absurd ⟨hcs, hxs⟩ hcx
          · exact Bool.not_eq_true _ ▸ Bool.of_not_eq_true hxs
        rw [hdw, ih rest hrlen hbr hAr, ← hc']
      · rw [if_neg hcs, ih rest hrlen hbr hAr]

theorem stripWS_id (l : List Char) (hedge : noEdgeWS l) : stripWS l = l := by
  unfold stripWS
  rw [dropWhile_eq_self_of_head pySpace l hedge.1]
  rw [dropWhile_eq_self_of_head pySpace l.reverse ?_, List.reverse_reverse]
  intro c hc
  rw [List.head?_reverse] at hc
  exact hedge.2 c hc

theorem sub3_id : ∀ (f : Nat) (l : List Char), l.length ≤ f →
    noAdjWS l → noWSPunct l → sub3 f l = l := by
  intro f
  induction f with
  | zero =>
    intro l h _ _
    cases l with
    | nil => rfl
    | cons c rest => simp at h
  | succ f ih =>
    intro l h hA hP
    cases l with
    | nil => rw [sub3_nil]
    | cons c rest =>
      have hrlen : rest.length ≤ f := by simp at h; omega
      have hAr : noAdjWS rest := (List.chain'_cons'.mp hA).2
      have hPr : noWSPunct rest := (List.chain'_cons'.mp hP).2
      rw [sub3_cons]
      by_cases hcs : pySpace c = true
      · have hdw : rest.dropWhile pySpace = rest := by
          apply dropWhile_eq_self_of_head
          intro x hx
          have hcx := (List.chain'_cons'.mp hA).1 x hx
          by_cases hxs : pySpace x = true
          · exact absurd ⟨hcs, hxs⟩ hcx
          · exact Bool.not_eq_true _ ▸ Bool.of_not_eq_true hxs
        have hph : punctHead rest = false := by
          cases rest with
          | nil => rfl
          | cons e tl =>
            rw [punctHead_cons]
            exact (List.chain'_cons'.mp hP).1 e rfl hcs
        rw [hdw, if_neg (by simp [hph]), ih rest hrlen hAr hPr]
      · rw [if_neg (by simp [hcs]), ih rest hrlen hAr hPr]

theorem sub1_id : ∀ (f : Nat) (l : List Char), l.length ≤ f →
    noWSPunct l → noDupStop l → sub1 f l = l := by
  intro f
  induction f with
  | zero =>
    intro l h _ _
    cases l with
    | nil => rfl
    | cons c rest => simp at h
  | succ f ih =>
    intro l h hP hD
    cases l with
    | nil => rw [sub1_nil]
    | cons c rest =>
      have hrlen : rest.length ≤ f := by simp at h; omega
      have hPr : noWSPunct rest := (List.chain'_cons'.mp hP).2
      have hDr : noDupStop rest := (List.chain'_cons'.mp hD).2
      have hcond : ¬((isStop1 c && ((rest.dropWhile pySpace).head? == some c)) = true) := by
        intro hcond
        rw [Bool.and_eq_true] at hcond
        obtain ⟨hstop, hhead⟩ := hcond
        have hheadEq : (rest.dropWhile pySpace).head? = some c := by
          simpa using hhead
        rcases chain'_head_dropWhile _ pySpace rest c hPr hheadEq with heq | ⟨a, hpa, hRa⟩
        · rw [heq] at hheadEq
          have := (List.chain'_cons'.mp hD).1 c hheadEq hstop
          exact this rfl
        · have h1 := hRa hpa
          rw [stop1_punct2 c hstop] at h1
          cases h1
      rw [sub1_cons, if_neg hcond, ih rest hrlen hPr hDr]

/-! Invariants of the full pipeline output, and of a further `sub1` pass. -/

theorem normalizeText_invariants (l : List Char) :
    allSpacesBlank (normalizeText l) ∧ noAdjWS (normalizeText l)
    ∧ noEdgeWS (normalizeText l) ∧ noWSPunct (normalizeText l) := by
  have hr : normalizeText l =
      sub3 (stripWS (sub2 (sub1 l.length l).length (sub1 l.length l))).length
        (stripWS (sub2 (sub1 l.length l).length (sub1 l.length l))) := rfl
  obtain ⟨hb2, ha2⟩ := sub2_blank_noAdj (sub1 l.length l).length (sub1 l.length l) (le_refl _)
  have hbu := stripWS_blank _ hb2
  have hau := stripWS_noAdj _ ha2
  have heu := stripWS_noEdge (sub2 (sub1 l.length l).length (sub1 l.length l))
  rw [hr]
  refine ⟨?_, ?_, ?_, ?_⟩
  · intro c hc
    exact hbu c ((sub3_sublist _ _).subset hc)
  · exact sub3_noAdj _ _ (le_refl _) hau
  · constructor
    · intro c hc
      cases hcase : stripWS (sub2 (sub1 l.length l).length (sub1 l.length l)) with
      | nil => rw [hcase, sub3_nil] at hc; cases hc
      | cons a tl =>
        have hans : pySpace a = false := heu.1 a (by rw [hcase]; rfl)
        rw [hcase, sub3_head_nonspace ((a :: tl).length) a tl (by simp) hans] at hc
        simp only [Option.mem_def, Option.some.injEq] at hc
        cases hc
        exact hans
    · exact sub3_last_nonspace _ _ (le_refl _) heu.2
  · exact sub3_noWSPunct _ _ (le_refl _)

theorem sub1_invariants (y : List Char) (hb : allSpacesBlank y) (ha : noAdjWS y)
    (he : noEdgeWS y) (hp : noWSPunct y) :
    allSpacesBlank (sub1 y.length y) ∧ noAdjWS (sub1 y.length y)
    ∧ noEdgeWS (sub1 y.length y) ∧ noWSPunct (sub1 y.length y)
    ∧ noDupStop (sub1 y.length y) := by
  refine ⟨?_, ?_, ⟨?_, ?_⟩, ?_, ?_⟩
  · intro c hc
    exact hb c ((sub1_sublist _ _).subset hc)
  · exact sub1_noAdj _ _ (le_refl _) ha
  · intro c hc
    rw [sub1_head? _ _ (le_refl _)] at hc
    exact he.1 c hc
  · exact sub1_last_nonspace _ _ (le_refl _) he.2
  · exact sub1_noWSPunct _ _ (le_refl _) hp
  · exact sub1_noDupStop _ _ (le_refl _)

/-- On text satisfying all five invariants, the whole pipeline is the
identity. -/
theorem normalizeText_fix (z : List Char) (hb : allSpacesBlank z) (ha : noAdjWS z)
    (he : noEdgeWS z) (hp : noWSPunct z) (hd : noDupStop z) :
    normalizeText z = z := by
  have hr : normalizeText z =
      sub3 (stripWS (sub2 (sub1 z.length z).length (sub1 z.length z))).length
        (stripWS (sub2 (sub1 z.length z).length (sub1 z.length z))) := rfl
  rw [hr, sub1_id z.length z (le_refl _) hp hd, sub2_id z.length z (le_refl _) hb ha,
    stripWS_id z he, sub3_id z.length z (le_refl _) ha hp]

/-- On text satisfying the four pipeline-output invariants, a further
normalization pass reduces to its `sub1` stage. -/
theorem normalizeText_eq_sub1 (y : List Char) (hb : allSpacesBlank y) (ha : noAdjWS y)
    (he : noEdgeWS y) (hp : noWSPunct y) :
    normalizeText y = sub1 y.length y := by
  obtain ⟨hbz, haz, hez, hpz, _⟩ := sub1_invariants y hb ha he hp
  have hr : normalizeText y =
      sub3 (stripWS (sub2 (sub1 y.length y).length (sub1 y.length y))).length
        (stripWS (sub2 (sub1 y.length y).length (sub1 y.length y))) := rfl
  rw [hr, sub2_id _ _ (le_refl _) hbz haz, stripWS_id _ hez,
    sub3_id _ _ (le_refl _) haz hpz]

/-- Two normalization passes reach a fixed point of the pipeline. -/
theorem normalizeText_two_pass (l : List Char) :
    normalizeText (normalizeText (normalizeText l)) = normalizeText (normalizeText l) := by
  obtain ⟨hb, ha, he, hp⟩ := normalizeText_invariants l
  obtain ⟨hbz, haz, hez, hpz, hdz⟩ := sub1_invariants (normalizeText l) hb ha he hp
  have h1 : normalizeText (normalizeText l) = sub1 (normalizeText l).length (normalizeText l) :=
    normalizeText_eq_sub1 _ hb ha he hp
  have h2 : normalizeText (sub1 (normalizeText l).length (normalizeText l))
      = sub1 (normalizeText l).length (normalizeText l) :=
    normalizeText_fix _ hbz haz hez hpz hdz
  rw [h1, h2]

set_option maxHeartbeats 1000000 in
/-- Counterexample to C3 as stated: the stitching normalization is not
idempotent on `"。 。 。"` (one pass yields `"。。"`, a second collapses it
to `"。"`). -/
theorem C3_normalize_counterexample :
    normalizeStr (normalizeStr "。 。 。") ≠ normalizeStr "。 。 。" := by decide

/-- C3 (amended): the stitching normalization is not idempotent in general,
but applying it twice reaches a fixed point: a third application is a no-op
on every string. -/
theorem C3_normalize_two_pass_idempotent (s : String) :
    normalizeStr (normalizeStr (normalizeStr s)) = normalizeStr (normalizeStr s) := by
  have hstr : ∀ t : String, normalizeStr t = ⟨normalizeText t.data⟩ := fun _ => rfl
  have hdata : ∀ l : List Char, (⟨l⟩ : String).data = l := fun _ => rfl
  rw [hstr s, hstr, hdata, hstr, hdata]
  exact congrArg String.mk (normalizeText_two_pass s.data)

/-! ### Claims about process_audio and the session protocol -/

/-- On an in-range even-length buffer, `process_audio` makes exactly one
recognizer call and returns its text verbatim (no trimming) when its stripped
form is non-empty, and `""` when the call fails or yields whitespace only. -/
theorem process_buf_short (g : List Int → Option String) (b : List Nat)
    (hmin : MIN_AUDIO_SIZE ≤ b.length) (hmax : b.length ≤ MAX_CHUNK_SIZE)
    (heven : b.length % 2 = 0) :
    (∀ t, g (toSamples b) = some t → pyStrip t ≠ "" → process_buf g b = (t, 1))
    ∧ (∀ t, g (toSamples b) = some t → pyStrip t = "" → process_buf g b = ("", 1))
    ∧ (g (toSamples b) = none → process_buf g b = ("", 1)) := by
  unfold process_buf
  rw [if_neg (by omega), if_neg (by omega), if_neg (by omega)]
  refine ⟨?_, ?_, ?_⟩
  · intro t hg ht
    rw [hg]
    simp only [if_neg ht]
  · intro t hg ht
    rw [hg]
    simp only [if_pos ht]
  · intro hg
    rw [hg]

set_option maxHeartbeats 1000000 in
/-- Counterexample to C2 as stated: on a recognizer output carrying
surrounding whitespace, the single-call result is returned verbatim, not
trimmed. -/
theorem C2_trim_counterexample :
    (process_buf (fun _ => some " 你好 ") (List.replicate 8000 0)).1
      ≠ pyStrip " 你好 " := by
  have h := (process_buf_short (fun _ => some " 你好 ") (List.replicate 8000 0)
    (by simp only [List.length_replicate]; try decide) (by simp only [List.length_replicate]; try decide)
    (by simp only [List.length_replicate]; try decide)).1 " 你好 " rfl (by decide)
  rw [h]
  decide

/-- C2 (amended): for every finalized buffer between the minimum size and the
chunking ceiling (with the even byte count `np.frombuffer` requires), the
transcription result equals the recognizer's single-call output verbatim when
that output has a non-whitespace character, and `""` otherwise — the code does
not trim the returned text. -/
theorem C2_short_buffer_verbatim (g : List Int → Option String) (b : List Nat)
    (hmin : MIN_AUDIO_SIZE ≤ b.length) (hmax : b.length ≤ MAX_CHUNK_SIZE)
    (heven : b.length % 2 = 0) :
    (∀ t, g (toSamples b) = some t → pyStrip t ≠ "" → process_buf g b = (t, 1))
    ∧ (∀ t, g (toSamples b) = some t → pyStrip t = "" → process_buf g b = ("", 1))
    ∧ (g (toSamples b) = none → process_buf g b = ("", 1)) :=
  process_buf_short g b hmin hmax heven

/-- Witness for C2 (amended) on a concrete 8000-byte buffer. -/
theorem C2_short_buffer_verbatim_witness :
    MIN_AUDIO_SIZE ≤ (List.replicate 8000 0).length
    ∧ (List.replicate 8000 0).length ≤ MAX_CHUNK_SIZE
    ∧ (List.replicate 8000 0).length % 2 = 0
    ∧ process_buf (fun _ => some " hi ") (List.replicate 8000 0) = (" hi ", 1) := by
  refine ⟨by simp only [List.length_replicate]; try decide,
    by simp only [List.length_replicate]; try decide,
    by simp only [List.length_replicate]; try decide, ?_⟩
  exact (C2_short_buffer_verbatim (fun _ => some " hi ") (List.replicate 8000 0)
    (by simp only [List.length_replicate]; try decide) (by simp only [List.length_replicate]; try decide)
    (by simp only [List.length_replicate]; try decide)).1 " hi " rfl (by decide)

/-- C5: a stop on a buffer under the minimum size produces exactly the
empty-result terminal frame, clears the session, and never invokes the
recognizer (zero `model.generate` calls). -/
theorem C5_small_buffer_empty_result (g : List Int → Option String) (s : Session)
    (h : s.buf.length < MIN_AUDIO_SIZE) :
    handleMessage g s .stop = (⟨[], false⟩, [.result "" true], 0) := by
  unfold handleMessage
  rw [if_neg (by omega)]

/-- Witness for C5 on a fresh session. -/
theorem C5_small_buffer_empty_result_witness :
    initSession.buf.length < MIN_AUDIO_SIZE
    ∧ handleMessage (fun _ => none) initSession .stop
        = (⟨[], false⟩, [.result "" true], 0) :=
  ⟨by decide, C5_small_buffer_empty_result (fun _ => none) initSession (by decide)⟩

/-- C6: every stop control message, in every session state and for every
recognizer behavior (success, empty text, or internal failure — `none`), is
answered by exactly one terminal `{text, is_final := true}` frame. -/
theorem C6_single_terminal_frame (g : List Int → Option String) (s : Session) :
    ∃ t, (handleMessage g s .stop).2.1 = [ServerMsg.result t true] := by
  unfold handleMessage
  by_cases h1 : MIN_AUDIO_SIZE ≤ s.buf.length
  · rw [if_pos h1]
    by_cases h2 : (process_buf g s.buf).1 ≠ "" ∧ pyStrip (process_buf g s.buf).1 ≠ ""
    · rw [if_pos h2]
      exact ⟨(process_buf g s.buf).1, rfl⟩
    · rw [if_neg h2]
      exact ⟨"", rfl⟩
  · rw [if_neg h1]
    exact ⟨"", rfl⟩

/-- C9: a session listens from connect time: the `is_speaking` flag starts
`true`, binary frames are appended to the buffer whenever the flag is set
(in particular before any start message), and no message other than a stop
ever clears the flag. -/
theorem C9_listening_from_connect (g : List Int → Option String) :
    initSession.is_speaking = true
    ∧ (∀ (s : Session) (data : List Nat), s.is_speaking = true →
        handleMessage g s (.bin data) = (⟨s.buf ++ data, true⟩, [], 0))
    ∧ (∀ (s : Session) (m : ClientMsg), s.is_speaking = true → m ≠ .stop →
        (handleMessage g s m).1.is_speaking = true) := by
  refine ⟨rfl, ?_, ?_⟩
  · intro s data hs
    show (if s.is_speaking = true then
        ((⟨s.buf ++ data, s.is_speaking⟩ : Session), ([] : List ServerMsg), 0)
      else (s, [], 0)) = ((⟨s.buf ++ data, true⟩ : Session), ([] : List ServerMsg), 0)
    rw [if_pos hs, hs]
  · intro s m hs hm
    cases m with
    | start => rfl
    | stop => exact absurd rfl hm
    | other => exact hs
    | bin data =>
      show (if s.is_speaking = true then
          ((⟨s.buf ++ data, s.is_speaking⟩ : Session), ([] : List ServerMsg), 0)
        else (s, [], 0)).1.is_speaking = true
      rw [if_pos hs]
      exact hs

/-- Witness for C9 at concrete inputs. -/
theorem C9_listening_from_connect_witness :
    initSession.is_speaking = true
    ∧ handleMessage (fun _ => none) initSession (.bin [1, 2] ) = (⟨[1, 2], true⟩, [], 0)
    ∧ (handleMessage (fun _ => none) initSession .start).1.is_speaking = true := by
  obtain ⟨h1, h2, h3⟩ := C9_listening_from_connect (fun _ => none)
  refine ⟨h1, ?_, h3 initSession .start rfl (by decide)⟩
  rw [h2 initSession [1, 2] rfl]
  rfl

/-! ### Claims about the synthesis call and pre-warm task -/

/-- C7: on every synthesis call that acquires the model gate (cache miss),
the gate is released exactly as many times as acquired, the transient output
file is removed exactly as many times as created, and the very last event is
the gate release — on the success path and on the path where inference
raises alike. -/
theorem clone_trace (digest : String → String) (maxN : Nat)
    (infer : Option (List Nat)) (text keyId : String) (st : List (String × List Nat)) :
    (clone_and_synthesize digest maxN infer text keyId st).2.2 = []
    ∨ (clone_and_synthesize digest maxN infer text keyId st).2.2
        = [SynthEv.acquire, SynthEv.fcreate, SynthEv.inferCall infer.isSome,
           SynthEv.fremove, SynthEv.release] := by
  unfold clone_and_synthesize
  by_cases hk : keyId = ""
  · rw [if_pos hk]
    right
    cases infer <;> rfl
  · rw [if_neg hk]
    cases hlook : (cacheLookup st (cache_key digest text keyId)).1 with
    | some wav => left; rfl
    | none =>
      right
      cases infer <;> rfl

theorem C7_gate_released_file_removed (digest : String → String) (maxN : Nat)
    (infer : Option (List Nat)) (text keyId : String) (st : List (String × List Nat))
    (hacq : SynthEv.acquire ∈ (clone_and_synthesize digest maxN infer text keyId st).2.2) :
    (clone_and_synthesize digest maxN infer text keyId st).2.2.count SynthEv.release
        = (clone_and_synthesize digest maxN infer text keyId st).2.2.count SynthEv.acquire
    ∧ (clone_and_synthesize digest maxN infer text keyId st).2.2.count SynthEv.fremove
        = (clone_and_synthesize digest maxN infer text keyId st).2.2.count SynthEv.fcreate
    ∧ (clone_and_synthesize digest maxN infer text keyId st).2.2.getLast?
        = some SynthEv.release := by
  rcases clone_trace digest maxN infer text keyId st with htr | htr
  · rw [htr] at hacq
    cases hacq
  · rw [htr] at hacq ⊢
    cases infer with
    | some wav =>
      simp only [Option.isSome_some]
      exact ⟨by decide, by decide, by decide⟩
    | none =>
      simp only [Option.isSome_none]
      exact ⟨by decide, by decide, by decide⟩

/-- Witness for C7: a failing inference call on a cache miss. -/
theorem C7_gate_released_file_removed_witness :
    SynthEv.acquire ∈ (clone_and_synthesize (fun s => s) 1 none "a" "v" []).2.2
    ∧ ((clone_and_synthesize (fun s => s) 1 none "a" "v" []).2.2.count SynthEv.release
        = (clone_and_synthesize (fun s => s) 1 none "a" "v" []).2.2.count SynthEv.acquire
      ∧ (clone_and_synthesize (fun s => s) 1 none "a" "v" []).2.2.count SynthEv.fremove
        = (clone_and_synthesize (fun s => s) 1 none "a" "v" []).2.2.count SynthEv.fcreate
      ∧ (clone_and_synthesize (fun s => s) 1 none "a" "v" []).2.2.getLast?
        = some SynthEv.release) :=
  ⟨by decide, C7_gate_released_file_removed (fun s => s) 1 none "a" "v" [] (by decide)⟩

set_option maxHeartbeats 1000000 in
/-- Counterexample to C8 as stated: with two registered voices and no
foreground activity, the pre-warm task never attempts any pair for the second
voice — it only processes `voice_ids[0]`. -/
theorem C8_every_voice_counterexample :
    ¬ (∀ v ∈ ["a", "b"], ∀ p ∈ COMMON_PHRASES,
        (v, p) ∈ (auto_preload (fun s => s) 50 (fun _ => none)
          ["a", "b"] (fun _ => false) []).2) := by
  decide

/-- C8 (amended): with no foreground activity observed, the pre-warm task
attempts the cache-lookup/gate/synthesize/store sequence exactly once per
common phrase, for the first listed registered voice only (none when no voice
is registered), and terminates after that single pass — each (voice, phrase)
pair is attempted at most once, with no retries. -/
theorem C8_preload_first_voice_only (digest : String → String) (maxN : Nat)
    (infer : String → Option (List Nat)) (voice_ids : List String)
    (active : Nat → Bool) (st : List (String × List Nat))
    (hquiet : ∀ i, active i = false) :
    (auto_preload digest maxN infer voice_ids active st).2 =
      (match voice_ids with
       | [] => []
       | v0 :: _ => COMMON_PHRASES.map (fun t => (v0, t)))
    ∧ ((auto_preload digest maxN infer voice_ids active st).2).Nodup := by
  have hloop : ∀ (ts : List String) (i : Nat) (st' : List (String × List Nat)) (v0 : String),
      (preloadLoop digest maxN infer v0 active ts i st').2 = ts.map (fun t => (v0, t)) := by
    intro ts
    induction ts with
    | nil => intro i st' v0; rfl
    | cons t ts ih =>
      intro i st' v0
      unfold preloadLoop
      rw [hquiet i]
      simp only [Bool.false_eq_true, if_false, List.map_cons]
      rw [ih (i + 1) _ v0]
  cases voice_ids with
  | nil => exact ⟨rfl, List.nodup_nil⟩
  | cons v0 vs =>
    have hAP : (auto_preload digest maxN infer (v0 :: vs) active st).2
        = (preloadLoop digest maxN infer v0 active COMMON_PHRASES 0 st).2 := rfl
    rw [hAP, hloop COMMON_PHRASES 0 st v0]
    refine ⟨rfl, ?_⟩
    apply List.Nodup.map
    · intro a b hab
      exact ((Prod.ext_iff).mp hab).2
    · decide

/-- Witness for C8 (amended) with two registered voices. -/
theorem C8_preload_first_voice_only_witness :
    (∀ i : Nat, (fun _ : Nat => false) i = false)
    ∧ ((auto_preload (fun s => s) 50 (fun _ => none) ["a", "b"] (fun _ => false) []).2
        = COMMON_PHRASES.map (fun t => ("a", t))
      ∧ ((auto_preload (fun s => s) 50 (fun _ => none) ["a", "b"] (fun _ => false) []).2).Nodup) :=
  ⟨fun _ => rfl, C8_preload_first_voice_only (fun s => s) 50 (fun _ => none)
    ["a", "b"] (fun _ => false) [] (fun _ => rfl)⟩

end EmoBit
